import Mathlib

/-!
# Verification of the `Mixer` class from `spotify_mixer.py`

This file gives a shallow embedding of the multi-source track mixer:
a round-robin scheduler over a list of finite sources, with a global
dedup set (`track_history`), a sliding window of recently emitted
artists (`artist_history`), a cyclic channel pointer and per-source
cursors.  The Python `while` loop of `next_track` is rendered as a
fuel-indexed recursion: `none` means the fuel ran out before the loop
returned (in particular, a result that is `none` for every fuel value
is a non-terminating loop), while `some (r, s')` means the call
returned `r` with post-state `s'`.

Python-specific semantics is modelled faithfully; in particular the
slice `list[-k:]` used to trim the artist history returns the *whole*
list when `k = 0` (since `-0 == 0`), which is captured by
`pySliceLast`.
-/

set_option autoImplicit false

/-- A track reference: a pair of opaque string identifiers, as built by
`get_playlist_tracks` (dicts with keys `track_id` and `artist_id`). -/
structure Track where
  track_id : String
  artist_id : String
deriving DecidableEq

instance : Inhabited Track :=
  ⟨⟨"", ""⟩⟩

/-- The mutable state of a `Mixer` object (`Mixer.__init__`).  The Python
set `track_history` is modelled as a duplicate-free list (insertion only
happens when the element is absent, mirroring set semantics); the
`prepped` flag is omitted because `prep` has no observable effect. -/
structure MixerState where
  source_list : List (List Track)
  dedup : Bool
  min_artist_separation : Nat
  fail_fast : Bool
  max_tracks : Nat
  track_history : List String
  artist_history : List String
  cur_channel : Nat
  source_positions : List Nat
deriving DecidableEq

/-- Embeds `Mixer.__init__`: empty histories, channel 0, one zero cursor per source. -/
def mkMixer (source_list : List (List Track)) (dedup : Bool)
    (min_artist_separation : Nat) (fail_fast : Bool) (max_tracks : Nat) :
    MixerState :=
  { source_list := source_list
    dedup := dedup
    min_artist_separation := min_artist_separation
    fail_fast := fail_fast
    max_tracks := max_tracks
    track_history := []
    artist_history := []
    cur_channel := 0
    source_positions := source_list.map fun _ => 0 }

/-- Python `l[-k:]` for `k ≥ 0`: for `k = 0` this is `l[0:]`, i.e. the whole
list (`-0 == 0` in Python); for `k > 0` it is the last `min k l.length`
elements. -/
def pySliceLast (k : Nat) (l : List String) : List String :=
  if k = 0 then l else l.drop (l.length - k)

/-- Embeds `Mixer.good_candidate`: reject when dedup is on and the track id was
already emitted, or when the artist is in the recent-artist window. -/
def good_candidate (s : MixerState) (track : Track) : Bool :=
  if s.dedup = true ∧ track.track_id ∈ s.track_history then
    false
  else if track.artist_id ∈ s.artist_history then
    false
  else
    true

/-- Embeds `Mixer.add_to_history`: add the track id to the dedup set, append the
artist and trim the artist history with `artist_history[-min_artist_separation:]`
whenever its length exceeds `min_artist_separation`. -/
def add_to_history (s : MixerState) (track : Track) : MixerState :=
  let th := if track.track_id ∈ s.track_history then s.track_history
            else track.track_id :: s.track_history
  let appended := s.artist_history ++ [track.artist_id]
  let ah := if s.min_artist_separation < appended.length then
              pySliceLast s.min_artist_separation appended
            else appended
  { s with track_history := th, artist_history := ah }

/-- Embeds `Mixer.next_channel`: increment the channel pointer, wrapping to 0 at
the number of sources. -/
def next_channel (s : MixerState) : MixerState :=
  let c := s.cur_channel + 1
  { s with cur_channel := if s.source_list.length ≤ c then 0 else c }

/-- Embeds `Mixer.get_next_candidate`: read the current channel's cursor; if the
channel is exhausted return `none` and leave the state unchanged, else
return the track under the cursor and advance that cursor.  (Python
indexes `source_list[cur_channel]` directly, which is only ever reached
with an in-range channel; the total rendering uses `getD`.) -/
def get_next_candidate (s : MixerState) : Option Track × MixerState :=
  let source := s.source_list.getD s.cur_channel []
  let position := s.source_positions.getD s.cur_channel 0
  if source.length ≤ position then
    (none, s)
  else
    (some (source.getD position default),
      { s with source_positions := s.source_positions.set s.cur_channel (position + 1) })

/-- The `while` loop of `Mixer.next_track`, fuel-indexed.  `none` means the
loop did not return within `fuel` iterations; `some (r, s')` means it
returned candidate `r` (the whole track, whose id Python returns) in
post-state `s'`. -/
def next_track_loop : Nat → MixerState → Nat → Option (Option Track × MixerState)
  | 0, _, _ => none
  | fuel + 1, s, consecutive_fails =>
    if 0 < s.source_list.length ∧ s.track_history.length < s.max_tracks then
      if s.fail_fast = true ∧ s.source_list.length ≤ consecutive_fails then
        some (none, s)
      else
        match get_next_candidate s with
        | (none, s1) => next_track_loop fuel (next_channel s1) (consecutive_fails + 1)
        | (some t, s1) =>
          if good_candidate s1 t = true then
            some (some t, next_channel (add_to_history s1 t))
          else
            next_track_loop fuel (next_channel s1) (consecutive_fails + 1)
    else
      some (none, s)

/-- Embeds `Mixer.next_track`: run the loop with the per-call failure counter at 0
and project the returned candidate to its `track_id`. -/
def next_track (fuel : Nat) (s : MixerState) : Option (Option String × MixerState) :=
  (next_track_loop fuel s 0).map fun p => (p.1.map Track.track_id, p.2)

/-- Repeated calls to `next_track`, recording each call's returned candidate
(`none` entries are exhaustion signals).  The result is `none` if some call
did not finish within `fuel` loop iterations. -/
def run_trace (fuel : Nat) : Nat → MixerState → Option (List (Option Track) × MixerState)
  | 0, s => some ([], s)
  | n + 1, s =>
    match next_track_loop fuel s 0 with
    | none => none
    | some (r, s1) =>
      match run_trace fuel n s1 with
      | none => none
      | some (rs, s2) => some (r :: rs, s2)

/-- Repeated calls to `next_track`, recording the returned `track_id`s
exactly as the Python caller sees them. -/
def run_calls (fuel n : Nat) (s : MixerState) : Option (List (Option String) × MixerState) :=
  (run_trace fuel n s).map fun p => (p.1.map (Option.map Track.track_id), p.2)

/-- The track ids actually produced in a sequence of call results. -/
def emittedIds (results : List (Option String)) : List String :=
  results.filterMap id

/-- The tracks actually produced in a trace of call results. -/
def emittedTracks (tr : List (Option Track)) : List Track :=
  tr.filterMap id

/-- The configuration fields of the mixer (everything the constructor fixes
and `next_track` never writes) agree between two states. -/
def SameConfig (s s' : MixerState) : Prop :=
  s'.source_list = s.source_list ∧ s'.dedup = s.dedup ∧
    s'.min_artist_separation = s.min_artist_separation ∧
    s'.fail_fast = s.fail_fast ∧ s'.max_tracks = s.max_tracks

/-- The last `k` elements of a list (the whole list when it is shorter).
For `k > 0` this is exactly what the trimming in `add_to_history` keeps. -/
def lastK (k : Nat) (l : List String) : List String :=
  l.drop (l.length - k)

/-- Artist separation by at least `k`: two equal entries of the emitted
artist sequence are always more than `k` positions apart, i.e. no artist
occurs twice within any window of `k + 1` consecutive emissions. -/
def SepBy (k : Nat) (A : List String) : Prop :=
  ∀ i j, i < j → j < A.length → A.getD i "" = A.getD j "" → i + k < j

/-- A state in which the mixer is permanently exhausted: no sources, or the
dedup set has reached `max_tracks`, or fail-fast is on and every source
cursor is at (or past) the end of its source. -/
def terminalB (s : MixerState) : Bool :=
  s.source_list.isEmpty
    || decide (s.max_tracks ≤ s.track_history.length)
    || (s.fail_fast
         && (List.range s.source_list.length).all fun i =>
              decide ((s.source_list.getD i []).length ≤ s.source_positions.getD i 0))

/-- C1's failing input: one source that is empty, `fail_fast = false`,
`max_tracks = 1`. -/
def mixC1 : MixerState := mkMixer [[]] true 4 false 1

/-- C2's counterexample input: one source holding the same track id three
times (distinct artists), `dedup = false`, `min_artist_separation = 0`,
`max_tracks = 2`. -/
def mixC2 : MixerState := mkMixer [[⟨"x", "a"⟩, ⟨"x", "b"⟩, ⟨"x", "c"⟩]] false 0 true 2

/-- The ids emitted by four `next_track` calls on `mixC2`. -/
def c2_emitted : List String :=
  ((run_calls 20 4 mixC2).map fun p => emittedIds p.1).getD []

/-- C3's failing input: two tracks by the same artist,
`min_artist_separation = 0`. -/
def mixC3 : MixerState := mkMixer [[⟨"x", "a"⟩, ⟨"y", "a"⟩]] true 0 true 10

/-- C4's input: sources `[[A1, A2], [B1]]` with artists `a, a / b`,
`dedup = true`, `min_artist_separation = 4`, `max_tracks = 10`. -/
def mixC4 : MixerState := mkMixer [[⟨"A1", "a"⟩, ⟨"A2", "a"⟩], [⟨"B1", "b"⟩]] true 4 true 10

/-- The results of five `next_track` calls on `mixC4`. -/
def c4_results : List (Option String) :=
  ((run_calls 20 5 mixC4).map fun p => p.1).getD []

/-- C5's counterexample input: a first source whose second entry is a
dedup duplicate, plus an empty source; `dedup = true`,
`min_artist_separation = 1`, `fail_fast = true`. -/
def mixC5 : MixerState := mkMixer [[⟨"x", "a"⟩, ⟨"x", "b"⟩, ⟨"y", "c"⟩], []] true 1 true 10

/-- The results of three `next_track` calls on `mixC5`. -/
def c5_results : List (Option String) :=
  ((run_calls 20 3 mixC5).map fun p => p.1).getD []

/-! ## Helper lemmas -/

/-- When the loop guard fails (no sources, or the dedup set has reached
`max_tracks`), `next_track` returns the exhaustion signal at once and
leaves the state unchanged. -/
theorem next_track_loop_guard_false {s : MixerState}
    (h : ¬ (0 < s.source_list.length ∧ s.track_history.length < s.max_tracks))
    {fuel : Nat} (hf : 0 < fuel) (fails : Nat) :
    next_track_loop fuel s fails = some (none, s) := by
  cases fuel with
  | zero => exact absurd hf (by simp)
  | succ n =>
    unfold next_track_loop
    rw [if_neg h]

/-- Any number of calls on a guard-failing state yields only exhaustion
signals and leaves the state unchanged. -/
theorem run_trace_degenerate {s : MixerState}
    (h : ¬ (0 < s.source_list.length ∧ s.track_history.length < s.max_tracks))
    {fuel : Nat} (hf : 0 < fuel) (n : Nat) :
    run_trace fuel n s = some (List.replicate n none, s) := by
  induction n with
  | zero => rfl
  | succ m ih =>
    unfold run_trace
    rw [next_track_loop_guard_false h hf]
    simp [ih, List.replicate_succ]

/-! ## Claim theorems -/

/-- C1: the claim asserts every `next_track` call terminates, in particular
with `fail_fast = false`.  The code refutes this: on `mixC1` (one empty
source, `fail_fast = false`, `max_tracks = 1`) the loop never returns, for
any amount of fuel and any value of the failure counter. -/
theorem c1_nontermination : ∀ fuel fails, next_track_loop fuel mixC1 fails = none := by
  intro fuel
  induction fuel with
  | zero => intro fails; rfl
  | succ n ih => intro fails; exact ih (fails + 1)

/-- C2 counterexample: with `dedup = false` and a source repeating one
track id, four calls on `mixC2` emit three tracks although
`max_tracks = 2` — the loop guard counts the dedup *set*, not emissions. -/
theorem c2_counterexample : ¬ (c2_emitted.length ≤ mixC2.max_tracks) := by decide

/-- C3: with `min_artist_separation = 0` the claim says the window stays
empty and no candidate is rejected by artist.  The code refutes this:
Python's `list[-0:]` is the whole list, so after emitting `x` the window is
`["a"]` (length 1 > 0) and the second call rejects `y` for its artist,
returning the exhaustion signal. -/
theorem c3_slice_bug_eval :
    ((run_calls 20 2 mixC3).map fun p => (p.1, p.2.artist_history)) =
      some ([some "x", none], ["a"]) := by decide

/-- C4 counterexample: the emitted sequence on `mixC4` is not
`[A1, B1, A2]` — `A2` is rejected by the artist window at the third call
and consumed, so it is never emitted. -/
theorem c4_counterexample : ¬ (emittedIds c4_results = ["A1", "B1", "A2"]) := by decide

/-- C4 amended: on sources `[[A1, A2], [B1]]` with artists `a, a / b`,
`min_artist_separation = 4`, `dedup = true`, `max_tracks = 10`, the calls
return exactly `A1`, then `B1`, then exhaustion on every further call. -/
theorem c4_amended_trace :
    (run_calls 20 5 mixC4).map (fun p => p.1) =
      some [some "A1", some "B1", none, none, none] := by decide

/-- C5 counterexample: on `mixC5` the second call returns the exhaustion
signal but the third call emits a track — a fail-fast dead round consumes
rejected candidates and thereby exposes acceptable ones, so exhaustion is
not terminal. -/
theorem c5_counterexample :
    c5_results.get? 1 = some none ∧ c5_results.get? 2 = some (some "y") := by decide

/-- C9: a mixer built over zero sources, or with `max_tracks = 0`, returns
the exhaustion signal on the first and every subsequent call, never
changing its state (and, being a total function, never raising). -/
theorem c9_degenerate_exhaustion (sources : List (List Track)) (d : Bool) (k : Nat)
    (ff : Bool) (mt : Nat) (hdeg : sources = [] ∨ mt = 0)
    (fuel n : Nat) (hf : 0 < fuel) :
    run_calls fuel n (mkMixer sources d k ff mt) =
      some (List.replicate n none, mkMixer sources d k ff mt) := by
  have hguard : ¬ (0 < (mkMixer sources d k ff mt).source_list.length ∧
      (mkMixer sources d k ff mt).track_history.length <
        (mkMixer sources d k ff mt).max_tracks) := by
    rcases hdeg with h | h
    · subst h; simp [mkMixer]
    · subst h; simp [mkMixer]
  unfold run_calls
  rw [run_trace_degenerate hguard hf]
  simp

/-- Witness for C9 at a concrete degenerate input. -/
theorem c9_witness :
    run_calls 1 2 (mkMixer [] true 4 true 5) =
      some ([none, none], mkMixer [] true 4 true 5) :=
  c9_degenerate_exhaustion [] true 4 true 5 (Or.inl rfl) 1 2 (by decide)

/-- A one-source, one-track mixer used to instantiate the
hypothesis-bearing theorems at a concrete input. -/
def mixW : MixerState := mkMixer [[⟨"w", "d"⟩]] true 2 true 3

/-- The state of `mixW` after one call: `w` emitted, its cursor advanced,
the channel wrapped back to 0. -/
def mixW_after : MixerState :=
  ⟨[[⟨"w", "d"⟩]], true, 2, true, 3, ["w"], ["d"], 0, [1]⟩

/-- A state with one fully consumed source and fail-fast on: a concrete
member of the terminal set. -/
def mixT : MixerState :=
  ⟨[[⟨"x", "a"⟩]], true, 4, true, 10, ["x"], ["a"], 0, [1]⟩

/-! ## Structural lemmas about single operations -/

theorem SameConfig.refl (s : MixerState) : SameConfig s s :=
  ⟨rfl, rfl, rfl, rfl, rfl⟩

theorem SameConfig.trans {a b c : MixerState} (h1 : SameConfig a b) (h2 : SameConfig b c) :
    SameConfig a c := by
  obtain ⟨e1, e2, e3, e4, e5⟩ := h1
  obtain ⟨f1, f2, f3, f4, f5⟩ := h2
  exact ⟨f1.trans e1, f2.trans e2, f3.trans e3, f4.trans e4, f5.trans e5⟩

theorem sameConfig_next_channel (s : MixerState) : SameConfig s (next_channel s) :=
  ⟨rfl, rfl, rfl, rfl, rfl⟩

theorem sameConfig_add_to_history (s : MixerState) (t : Track) :
    SameConfig s (add_to_history s t) :=
  ⟨rfl, rfl, rfl, rfl, rfl⟩

theorem next_channel_track_history (s : MixerState) :
    (next_channel s).track_history = s.track_history := rfl

theorem next_channel_artist_history (s : MixerState) :
    (next_channel s).artist_history = s.artist_history := rfl

theorem next_channel_source_positions (s : MixerState) :
    (next_channel s).source_positions = s.source_positions := rfl

theorem add_to_history_cur_channel (s : MixerState) (t : Track) :
    (add_to_history s t).cur_channel = s.cur_channel := rfl

theorem add_to_history_track_history (s : MixerState) (t : Track) :
    (add_to_history s t).track_history =
      if t.track_id ∈ s.track_history then s.track_history
      else t.track_id :: s.track_history := rfl

theorem add_to_history_artist_history (s : MixerState) (t : Track) :
    (add_to_history s t).artist_history =
      if s.min_artist_separation < (s.artist_history ++ [t.artist_id]).length then
        pySliceLast s.min_artist_separation (s.artist_history ++ [t.artist_id])
      else s.artist_history ++ [t.artist_id] := rfl

/-- The state returned by `get_next_candidate` differs from the input state
at most in `source_positions`. -/
theorem get_next_candidate_snd (s : MixerState) :
    SameConfig s (get_next_candidate s).2 ∧
      (get_next_candidate s).2.track_history = s.track_history ∧
      (get_next_candidate s).2.artist_history = s.artist_history ∧
      (get_next_candidate s).2.cur_channel = s.cur_channel := by
  unfold get_next_candidate
  dsimp only
  split
  · exact ⟨SameConfig.refl s, rfl, rfl, rfl⟩
  · exact ⟨⟨rfl, rfl, rfl, rfl, rfl⟩, rfl, rfl, rfl⟩

/-- In the channel-exhausted case `get_next_candidate` returns the state
unchanged. -/
theorem get_next_candidate_none {s s1 : MixerState}
    (h : get_next_candidate s = (none, s1)) : s1 = s := by
  unfold get_next_candidate at h
  dsimp only at h
  split at h
  · exact (Prod.mk.injEq _ _ _ _ ▸ h).2.symm ▸ rfl
  · exact absurd (Prod.mk.injEq _ _ _ _ ▸ h).1 (by simp)

/-- Unfolding of a successful fetch: the candidate is the entry under the
current channel's cursor, which is in range, and only that cursor moves. -/
theorem get_next_candidate_some {s s1 : MixerState} {t : Track}
    (h : get_next_candidate s = (some t, s1)) :
    s.source_positions.getD s.cur_channel 0 <
        (s.source_list.getD s.cur_channel []).length ∧
      t = (s.source_list.getD s.cur_channel []).getD
            (s.source_positions.getD s.cur_channel 0) default ∧
      s1.source_positions =
        s.source_positions.set s.cur_channel
          (s.source_positions.getD s.cur_channel 0 + 1) := by
  unfold get_next_candidate at h
  dsimp only at h
  split at h
  · exact absurd (Prod.mk.injEq _ _ _ _ ▸ h).1 (by simp)
  · rename_i hlt
    have h1 := (Prod.mk.injEq _ _ _ _ ▸ h).1
    have h2 := (Prod.mk.injEq _ _ _ _ ▸ h).2
    refine ⟨by omega, (Option.some.injEq _ _ ▸ h1).symm, ?_⟩
    rw [← h2]

/-- Unfolding of `good_candidate` into its two rejection conditions. -/
theorem good_candidate_true_iff (s : MixerState) (t : Track) :
    good_candidate s t = true ↔
      ¬ (s.dedup = true ∧ t.track_id ∈ s.track_history) ∧
        t.artist_id ∉ s.artist_history := by
  unfold good_candidate
  split
  · rename_i h
    simp [h]
  · split
    · rename_i h1 h2
      simp [h1, h2]
    · rename_i h1 h2
      simp [h1, h2]

/-- Postcondition of the `next_track` loop: the configuration is
preserved, and either the exhaustion signal is returned with both
histories unchanged, or a track satisfying both acceptance conditions at
the moment of emission is returned, with the histories updated exactly as
`add_to_history` does. -/
theorem next_track_loop_post :
    ∀ (fuel : Nat) (s : MixerState) (fails : Nat) (r : Option Track) (s' : MixerState),
      next_track_loop fuel s fails = some (r, s') →
      SameConfig s s' ∧
        ((r = none ∧ s'.track_history = s.track_history ∧
            s'.artist_history = s.artist_history) ∨
          (∃ t, r = some t ∧
            s.track_history.length < s.max_tracks ∧
            (s.dedup = true → t.track_id ∉ s.track_history) ∧
            t.artist_id ∉ s.artist_history ∧
            s'.track_history =
              (if t.track_id ∈ s.track_history then s.track_history
               else t.track_id :: s.track_history) ∧
            s'.artist_history =
              (if s.min_artist_separation <
                   (s.artist_history ++ [t.artist_id]).length then
                 pySliceLast s.min_artist_separation
                   (s.artist_history ++ [t.artist_id])
               else s.artist_history ++ [t.artist_id]))) := by
  intro fuel
  induction fuel with
  | zero =>
    intro s fails r s' h
    exact absurd h (by simp [next_track_loop])
  | succ n ih =>
    intro s fails r s' h
    unfold next_track_loop at h
    by_cases hg : 0 < s.source_list.length ∧ s.track_history.length < s.max_tracks
    · rw [if_pos hg] at h
      by_cases hff : s.fail_fast = true ∧ s.source_list.length ≤ fails
      · rw [if_pos hff] at h
        simp only [Option.some.injEq, Prod.mk.injEq] at h
        obtain ⟨h1, h2⟩ := h
        subst h1
        subst h2
        exact ⟨SameConfig.refl s, Or.inl ⟨rfl, rfl, rfl⟩⟩
      · rw [if_neg hff] at h
        rcases hgc : get_next_candidate s with ⟨rc, s1⟩
        rw [hgc] at h
        have hs1 : s1 = (get_next_candidate s).2 := by rw [hgc]
        obtain ⟨hcfg1, hth1, hah1, hcc1⟩ := get_next_candidate_snd s
        rw [← hs1] at hcfg1 hth1 hah1 hcc1
        have e_cfg : SameConfig s (next_channel s1) :=
          SameConfig.trans hcfg1 (sameConfig_next_channel s1)
        have e_th : (next_channel s1).track_history = s.track_history := by
          rw [next_channel_track_history, hth1]
        have e_ah : (next_channel s1).artist_history = s.artist_history := by
          rw [next_channel_artist_history, hah1]
        cases rc with
        | none =>
          have h' : next_track_loop n (next_channel s1) (fails + 1) = some (r, s') := h
          obtain ⟨hcfg2, hrest⟩ := ih (next_channel s1) (fails + 1) r s' h'
          obtain ⟨c1, c2, c3, c4, c5⟩ := e_cfg
          rw [c2, c3, c5, e_th, e_ah] at hrest
          exact ⟨SameConfig.trans ⟨c1, c2, c3, c4, c5⟩ hcfg2, hrest⟩
        | some t =>
          have hred : (if good_candidate s1 t = true then
              some (some t, next_channel (add_to_history s1 t))
            else next_track_loop n (next_channel s1) (fails + 1)) = some (r, s') := h
          by_cases hgood : good_candidate s1 t = true
          · rw [if_pos hgood] at hred
            simp only [Option.some.injEq, Prod.mk.injEq] at hred
            obtain ⟨h1, h2⟩ := hred
            subst h1
            subst h2
            obtain ⟨hnd, hna⟩ := (good_candidate_true_iff s1 t).mp hgood
            refine ⟨SameConfig.trans hcfg1
              (SameConfig.trans (sameConfig_add_to_history s1 t)
                (sameConfig_next_channel _)), Or.inr ⟨t, rfl, hg.2, ?_, ?_, ?_, ?_⟩⟩
            · intro hd hmem
              exact hnd ⟨by rw [hcfg1.2.1, hd], by rwa [hth1]⟩
            · rwa [hah1] at hna
            · rw [next_channel_track_history, add_to_history_track_history, hth1]
            · rw [next_channel_artist_history, add_to_history_artist_history,
                hah1, hcfg1.2.2.1]
          · rw [if_neg hgood] at hred
            obtain ⟨hcfg2, hrest⟩ := ih (next_channel s1) (fails + 1) r s' hred
            obtain ⟨c1, c2, c3, c4, c5⟩ := e_cfg
            rw [c2, c3, c5, e_th, e_ah] at hrest
            exact ⟨SameConfig.trans ⟨c1, c2, c3, c4, c5⟩ hcfg2, hrest⟩
    · rw [if_neg hg] at h
      simp only [Option.some.injEq, Prod.mk.injEq] at h
      obtain ⟨h1, h2⟩ := h
      subst h1
      subst h2
      exact ⟨SameConfig.refl s, Or.inl ⟨rfl, rfl, rfl⟩⟩

theorem emittedTracks_nil : emittedTracks [] = [] := rfl

theorem emittedTracks_none_cons (rs : List (Option Track)) :
    emittedTracks (none :: rs) = emittedTracks rs := rfl

theorem emittedTracks_some_cons (t : Track) (rs : List (Option Track)) :
    emittedTracks (some t :: rs) = t :: emittedTracks rs := rfl

/-- Postcondition of a sequence of calls: the configuration is preserved,
the dedup set ends up holding exactly its old members plus the emitted
ids, and its size never outgrows `max_tracks`. -/
theorem run_trace_post :
    ∀ (fuel n : Nat) (s : MixerState) (tr : List (Option Track)) (s' : MixerState),
      run_trace fuel n s = some (tr, s') →
      SameConfig s s' ∧
        (∀ x, x ∈ s'.track_history ↔
          x ∈ s.track_history ∨ x ∈ (emittedTracks tr).map Track.track_id) ∧
        (s.track_history.length ≤ s.max_tracks →
          s'.track_history.length ≤ s.max_tracks) := by
  intro fuel n
  induction n with
  | zero =>
    intro s tr s' h
    simp only [run_trace, Option.some.injEq, Prod.mk.injEq] at h
    obtain ⟨h1, h2⟩ := h
    subst h1
    subst h2
    exact ⟨SameConfig.refl s, fun x => by simp [emittedTracks_nil], fun h => h⟩
  | succ n ih =>
    intro s tr s' h
    unfold run_trace at h
    rcases hl : next_track_loop fuel s 0 with _ | ⟨r, s1⟩
    · rw [hl] at h
      exact absurd h (by simp)
    · rw [hl] at h
      have hmt : (match run_trace fuel n s1 with
          | none => none
          | some (rs, s2) => some (r :: rs, s2)) = some (tr, s') := h
      rcases hr : run_trace fuel n s1 with _ | ⟨rs, s2⟩
      · rw [hr] at hmt
        exact absurd hmt (by simp)
      · rw [hr] at hmt
        simp only [Option.some.injEq, Prod.mk.injEq] at hmt
        obtain ⟨h1, h2⟩ := hmt
        subst h1
        subst h2
        obtain ⟨cfg1, hpost⟩ := next_track_loop_post fuel s 0 r s1 hl
        obtain ⟨cfg2, hmem2, hlen2⟩ := ih s1 rs s2 hr
        refine ⟨SameConfig.trans cfg1 cfg2, ?_, ?_⟩
        · intro x
          rcases hpost with ⟨hrn, hth, _⟩ | ⟨t, hrt, _, _, _, hth, _⟩
          · subst hrn
            rw [hmem2 x, hth, emittedTracks_none_cons]
          · subst hrt
            rw [hmem2 x, hth, emittedTracks_some_cons]
            by_cases hin : t.track_id ∈ s.track_history
            · rw [if_pos hin]
              simp only [List.map_cons, List.mem_cons]
              constructor
              · intro hx
                rcases hx with hx | hx
                · exact Or.inl hx
                · exact Or.inr (Or.inr hx)
              · intro hx
                rcases hx with hx | hx | hx
                · exact Or.inl hx
                · exact Or.inl (hx ▸ hin)
                · exact Or.inr hx
            · rw [if_neg hin]
              simp only [List.map_cons, List.mem_cons]
              tauto
        · intro hstart
          rcases hpost with ⟨_, hth, _⟩ | ⟨t, _, hlt, _, _, hth, _⟩
          · have : s1.track_history.length ≤ s1.max_tracks := by
              rw [hth, cfg1.2.2.2.2]
              exact hstart
            have := hlen2 this
            rwa [cfg1.2.2.2.2] at this
          · have : s1.track_history.length ≤ s1.max_tracks := by
              rw [hth, cfg1.2.2.2.2]
              by_cases hin : t.track_id ∈ s.track_history
              · rw [if_pos hin]
                exact hstart
              · rw [if_neg hin]
                simpa using hlt
            have := hlen2 this
            rwa [cfg1.2.2.2.2] at this

theorem emittedIds_map_trace (tr : List (Option Track)) :
    emittedIds (tr.map (Option.map Track.track_id)) =
      (emittedTracks tr).map Track.track_id := by
  induction tr with
  | nil => rfl
  | cons hd tl ih =>
    cases hd with
    | none =>
      simpa [emittedIds, emittedTracks, List.filterMap_cons] using ih
    | some t =>
      simpa [emittedIds, emittedTracks, List.filterMap_cons] using ih

/-- Here `run_calls` is the id-projection of `run_trace`. -/
theorem run_calls_some {fuel n : Nat} {s : MixerState} {out : List (Option String)}
    {s' : MixerState} (h : run_calls fuel n s = some (out, s')) :
    ∃ tr, run_trace fuel n s = some (tr, s') ∧
      out = tr.map (Option.map Track.track_id) := by
  unfold run_calls at h
  rcases htr : run_trace fuel n s with _ | ⟨tr, s2⟩
  · rw [htr] at h
    exact absurd h (by simp)
  · rw [htr] at h
    simp only [Option.map_some', Option.some.injEq, Prod.mk.injEq] at h
    obtain ⟨h1, h2⟩ := h
    refine ⟨tr, ?_, h1.symm⟩
    rw [h2]

/-- With dedup on, the dedup set grows by exactly one fresh id per
emission: it ends as the reversed emission sequence on top of its old
contents, and stays duplicate-free. -/
theorem run_trace_dedup :
    ∀ (fuel n : Nat) (s : MixerState) (tr : List (Option Track)) (s' : MixerState),
      s.dedup = true → s.track_history.Nodup →
      run_trace fuel n s = some (tr, s') →
      s'.track_history =
          ((emittedTracks tr).map Track.track_id).reverse ++ s.track_history ∧
        s'.track_history.Nodup := by
  intro fuel n
  induction n with
  | zero =>
    intro s tr s' hd hnd h
    simp only [run_trace, Option.some.injEq, Prod.mk.injEq] at h
    obtain ⟨h1, h2⟩ := h
    subst h1
    subst h2
    exact ⟨by simp [emittedTracks_nil], hnd⟩
  | succ n ih =>
    intro s tr s' hd hnd h
    unfold run_trace at h
    rcases hl : next_track_loop fuel s 0 with _ | ⟨r, s1⟩
    · rw [hl] at h
      exact absurd h (by simp)
    · rw [hl] at h
      have hmt : (match run_trace fuel n s1 with
          | none => none
          | some (rs, s2) => some (r :: rs, s2)) = some (tr, s') := h
      rcases hr : run_trace fuel n s1 with _ | ⟨rs, s2⟩
      · rw [hr] at hmt
        exact absurd hmt (by simp)
      · rw [hr] at hmt
        simp only [Option.some.injEq, Prod.mk.injEq] at hmt
        obtain ⟨h1, h2⟩ := hmt
        subst h1
        subst h2
        obtain ⟨cfg1, hpost⟩ := next_track_loop_post fuel s 0 r s1 hl
        have hd1 : s1.dedup = true := by rw [cfg1.2.1, hd]
        rcases hpost with ⟨hrn, hth, _⟩ | ⟨t, hrt, _, hfresh, _, hth, _⟩
        · subst hrn
          have hnd1 : s1.track_history.Nodup := by rwa [hth]
          obtain ⟨heq, hnd2⟩ := ih s1 rs s2 hd1 hnd1 hr
          rw [hth] at heq
          exact ⟨by rw [heq, emittedTracks_none_cons], hnd2⟩
        · subst hrt
          have hnotin : t.track_id ∉ s.track_history := hfresh hd
          rw [if_neg hnotin] at hth
          have hnd1 : s1.track_history.Nodup := by
            rw [hth]
            exact List.Nodup.cons hnotin hnd
          obtain ⟨heq, hnd2⟩ := ih s1 rs s2 hd1 hnd1 hr
          rw [hth] at heq
          refine ⟨?_, hnd2⟩
          rw [heq, emittedTracks_some_cons]
          simp [List.append_assoc]

/-- C10: after any sequence of calls from construction, the dedup set
holds exactly the ids returned so far — for every configuration, in
particular also with `dedup = false`. -/
theorem c10_history_eq_emitted (sources : List (List Track)) (d : Bool) (k : Nat)
    (ff : Bool) (mt : Nat) (fuel n : Nat) (out : List (Option String))
    (s' : MixerState)
    (h : run_calls fuel n (mkMixer sources d k ff mt) = some (out, s')) :
    ∀ x, x ∈ s'.track_history ↔ x ∈ emittedIds out := by
  obtain ⟨tr, htr, hout⟩ := run_calls_some h
  obtain ⟨_, hmem, _⟩ := run_trace_post fuel n _ tr s' htr
  intro x
  rw [hout, emittedIds_map_trace]
  have h0 : (mkMixer sources d k ff mt).track_history = [] := rfl
  rw [hmem x, h0]
  simp

/-- Witness for C10 at a concrete one-track input. -/
theorem c10_witness : "w" ∈ mixW_after.track_history ↔ "w" ∈ emittedIds [some "w"] :=
  c10_history_eq_emitted [[⟨"w", "d"⟩]] true 2 true 3 5 1 [some "w"] mixW_after
    (by decide) "w"

/-- C2 amended: for every configuration, the number of *distinct* track
ids ever returned is at most `max_tracks` (the loop guard bounds the
dedup set, not the emission count). -/
theorem c2_amended_cap (sources : List (List Track)) (d : Bool) (k : Nat)
    (ff : Bool) (mt : Nat) (fuel n : Nat) (out : List (Option String))
    (s' : MixerState)
    (h : run_calls fuel n (mkMixer sources d k ff mt) = some (out, s')) :
    (emittedIds out).toFinset.card ≤ mt := by
  obtain ⟨tr, htr, hout⟩ := run_calls_some h
  obtain ⟨cfg, hmem, hlen⟩ := run_trace_post fuel n _ tr s' htr
  have hsub : (emittedIds out).toFinset ⊆ s'.track_history.toFinset := by
    intro x hx
    rw [List.mem_toFinset] at hx ⊢
    refine (hmem x).mpr (Or.inr ?_)
    rwa [hout, emittedIds_map_trace] at hx
  have h1 : (emittedIds out).toFinset.card ≤ s'.track_history.toFinset.card :=
    Finset.card_le_card hsub
  have h2 : s'.track_history.toFinset.card ≤ s'.track_history.length :=
    List.toFinset_card_le _
  have h3 : s'.track_history.length ≤ mt := hlen (by simp [mkMixer])
  omega

/-- Witness for C2's amended theorem at a concrete one-track input. -/
theorem c2_witness : (emittedIds [some "w"]).toFinset.card ≤ 3 :=
  c2_amended_cap [[⟨"w", "d"⟩]] true 2 true 3 5 1 [some "w"] mixW_after (by decide)

/-- C6: with `dedup = true`, the returned ids are pairwise distinct and,
after any number of calls, their count equals the size of the dedup set. -/
theorem c6_dedup_distinct (sources : List (List Track)) (k : Nat) (ff : Bool)
    (mt : Nat) (fuel n : Nat) (out : List (Option String)) (s' : MixerState)
    (h : run_calls fuel n (mkMixer sources true k ff mt) = some (out, s')) :
    (emittedIds out).Nodup ∧
      (emittedIds out).length = s'.track_history.length := by
  obtain ⟨tr, htr, hout⟩ := run_calls_some h
  obtain ⟨heq, hnd⟩ := run_trace_dedup fuel n _ tr s' rfl List.nodup_nil htr
  have hids : emittedIds out = (emittedTracks tr).map Track.track_id := by
    rw [hout, emittedIds_map_trace]
  constructor
  · rw [hids]
    rw [heq] at hnd
    simpa [mkMixer, List.nodup_reverse] using hnd
  · rw [hids, heq]
    simp [mkMixer]

/-- Witness for C6 at a concrete one-track input. -/
theorem c6_witness :
    (emittedIds [some "w"]).Nodup ∧
      (emittedIds [some "w"]).length = mixW_after.track_history.length :=
  c6_dedup_distinct [[⟨"w", "d"⟩]] 2 true 3 5 1 [some "w"] mixW_after (by decide)

theorem terminalB_next_channel (s : MixerState) :
    terminalB (next_channel s) = terminalB s := rfl

theorem get_next_candidate_exhausted {s : MixerState}
    (hex : (s.source_list.getD s.cur_channel []).length ≤
      s.source_positions.getD s.cur_channel 0) :
    get_next_candidate s = (none, s) := by
  unfold get_next_candidate
  dsimp only
  split
  · rfl
  · rename_i hlt
    omega

/-- C5 amended: the membership of `terminalB` — no sources, dedup set at
`max_tracks`, or fail-fast with every cursor at the end — is an invariant
set on which every completed call returns the exhaustion signal; a
fail-fast dead round alone is not terminal (see the counterexample). -/
theorem c5_amended_terminal :
    ∀ (fuel : Nat) (s : MixerState) (fails : Nat) (r : Option Track) (s' : MixerState),
      terminalB s = true →
      next_track_loop fuel s fails = some (r, s') →
      r = none ∧ terminalB s' = true := by
  intro fuel
  induction fuel with
  | zero =>
    intro s fails r s' ht h
    exact absurd h (by simp [next_track_loop])
  | succ n ih =>
    intro s fails r s' ht h
    unfold next_track_loop at h
    by_cases hg : 0 < s.source_list.length ∧ s.track_history.length < s.max_tracks
    · rw [if_pos hg] at h
      have htt := ht
      unfold terminalB at htt
      simp only [Bool.or_eq_true, Bool.and_eq_true, decide_eq_true_eq,
        List.isEmpty_iff, List.all_eq_true, List.mem_range] at htt
      rcases htt with (h1 | h2) | ⟨hff', hall⟩
      · rw [h1] at hg
        exact absurd hg.1 (by simp)
      · omega
      · by_cases hff : s.fail_fast = true ∧ s.source_list.length ≤ fails
        · rw [if_pos hff] at h
          simp only [Option.some.injEq, Prod.mk.injEq] at h
          obtain ⟨h1, h2⟩ := h
          subst h1
          subst h2
          exact ⟨rfl, ht⟩
        · rw [if_neg hff] at h
          have hex : (s.source_list.getD s.cur_channel []).length ≤
              s.source_positions.getD s.cur_channel 0 := by
            by_cases hcur : s.cur_channel < s.source_list.length
            · exact hall s.cur_channel hcur
            · rw [List.getD_eq_default]
              · simp
              · omega
          rw [get_next_candidate_exhausted hex] at h
          have h' : next_track_loop n (next_channel s) (fails + 1) = some (r, s') := h
          exact ih (next_channel s) (fails + 1) r s'
            ((terminalB_next_channel s).trans ht) h'
    · rw [if_neg hg] at h
      simp only [Option.some.injEq, Prod.mk.injEq] at h
      obtain ⟨h1, h2⟩ := h
      subst h1
      subst h2
      exact ⟨rfl, ht⟩

/-- Witness for C5's amended theorem at the concrete terminal state `mixT`. -/
theorem c5_witness : (none : Option Track) = none ∧ terminalB mixT = true :=
  c5_amended_terminal 3 mixT 0 none mixT (by decide) (by decide)

/-- For `k > 0` the trimming in `add_to_history` keeps exactly the last
`k` elements. -/
theorem trim_eq_lastK {k : Nat} (hk : k ≠ 0) (l : List String) :
    (if k < l.length then pySliceLast k l else l) = lastK k l := by
  by_cases h : k < l.length
  · rw [if_pos h]
    unfold pySliceLast lastK
    rw [if_neg hk]
  · rw [if_neg h]
    unfold lastK
    have h0 : l.length - k = 0 := by omega
    rw [h0, List.drop_zero]

theorem lastK_append_single (k : Nat) (A : List String) (a : String) :
    lastK k (lastK k A ++ [a]) = lastK k (A ++ [a]) := by
  by_cases h : A.length ≤ k
  · unfold lastK
    have h0 : A.length - k = 0 := by omega
    rw [h0, List.drop_zero]
  · unfold lastK
    simp only [List.length_append, List.length_drop, List.length_singleton]
    have e1 : A.length - (A.length - k) + 1 - k = 1 := by omega
    rw [e1]
    rw [← List.drop_append_of_le_length (show A.length - k ≤ A.length by omega)]
    rw [List.drop_drop]
    congr 1
    omega

/-- Appending an artist that is absent from the last `k` entries keeps a
history `k`-separated. -/
theorem sepBy_append {k : Nat} {A : List String} {a : String}
    (hs : SepBy k A) (hnot : a ∉ lastK k A) : SepBy k (A ++ [a]) := by
  intro i j hij hj heq
  rw [List.length_append, List.length_singleton] at hj
  by_cases hjA : j < A.length
  · have hiA : i < A.length := lt_trans hij hjA
    rw [List.getD_append _ _ _ _ hiA, List.getD_append _ _ _ _ hjA] at heq
    exact hs i j hij hjA heq
  · have hjl : j = A.length := by omega
    subst hjl
    have hiA : i < A.length := hij
    rw [List.getD_append _ _ _ _ hiA] at heq
    have hb : A.length < (A ++ [a]).length := by
      rw [List.length_append, List.length_singleton]
      omega
    have hja : (A ++ [a]).getD A.length "" = a := by
      rw [List.getD_eq_getElem _ _ hb]
      exact List.getElem_concat_length A a A.length rfl hb
    rw [hja] at heq
    by_contra hcon
    push_neg at hcon
    apply hnot
    unfold lastK
    have hbd : i - (A.length - k) < (A.drop (A.length - k)).length := by
      rw [List.length_drop]
      omega
    refine List.mem_iff_getElem.mpr ⟨i - (A.length - k), hbd, ?_⟩
    rw [List.getElem_drop]
    have e : A.length - k + (i - (A.length - k)) = i := by omega
    rw [getElem_congr e]
    rw [← List.getD_eq_getElem A "" hiA]
    exact heq

/-- Run-level separation invariant: if the artist window currently holds
the last `k` of an already-`k`-separated emission history `A0`, then after
any number of calls the extended emission history is still `k`-separated
and the window still holds its last `k` entries. -/
theorem run_trace_sep :
    ∀ (fuel n : Nat) (s : MixerState) (tr : List (Option Track)) (s' : MixerState)
      (k : Nat) (A0 : List String),
      k ≠ 0 → s.min_artist_separation = k →
      s.artist_history = lastK k A0 → SepBy k A0 →
      run_trace fuel n s = some (tr, s') →
      SepBy k (A0 ++ (emittedTracks tr).map Track.artist_id) ∧
        s'.artist_history = lastK k (A0 ++ (emittedTracks tr).map Track.artist_id) := by
  intro fuel n
  induction n with
  | zero =>
    intro s tr s' k A0 hk hmk hah hsep h
    simp only [run_trace, Option.some.injEq, Prod.mk.injEq] at h
    obtain ⟨h1, h2⟩ := h
    subst h1
    subst h2
    constructor
    · simpa [emittedTracks_nil] using hsep
    · simpa [emittedTracks_nil] using hah
  | succ n ih =>
    intro s tr s' k A0 hk hmk hah hsep h
    unfold run_trace at h
    rcases hl : next_track_loop fuel s 0 with _ | ⟨r, s1⟩
    · rw [hl] at h
      exact absurd h (by simp)
    · rw [hl] at h
      have hmt : (match run_trace fuel n s1 with
          | none => none
          | some (rs, s2) => some (r :: rs, s2)) = some (tr, s') := h
      rcases hr : run_trace fuel n s1 with _ | ⟨rs, s2⟩
      · rw [hr] at hmt
        exact absurd hmt (by simp)
      · rw [hr] at hmt
        simp only [Option.some.injEq, Prod.mk.injEq] at hmt
        obtain ⟨h1, h2⟩ := hmt
        subst h1
        subst h2
        obtain ⟨cfg1, hpost⟩ := next_track_loop_post fuel s 0 r s1 hl
        have hmk1 : s1.min_artist_separation = k := by rw [cfg1.2.2.1, hmk]
        rcases hpost with ⟨hrn, _, hahe⟩ | ⟨t, hrt, _, _, hfresh_a, _, hahe⟩
        · subst hrn
          have := ih s1 rs s2 k A0 hk hmk1 (by rw [hahe, hah]) hsep hr
          simpa [emittedTracks_none_cons] using this
        · subst hrt
          rw [hah] at hfresh_a
          have hsep1 : SepBy k (A0 ++ [t.artist_id]) := sepBy_append hsep hfresh_a
          have hah1 : s1.artist_history = lastK k (A0 ++ [t.artist_id]) := by
            rw [hahe, hah, hmk, trim_eq_lastK hk]
            exact lastK_append_single k A0 t.artist_id
          have := ih s1 rs s2 k (A0 ++ [t.artist_id]) hk hmk1 hah1 hsep1 hr
          simpa [emittedTracks_some_cons, List.append_assoc] using this

/-- C7: for every `min_artist_separation = k > 0`, two emissions of the
same artist are always more than `k` apart — no artist occurs twice within
any window of `k + 1` consecutive emissions. -/
theorem c7_artist_separation (sources : List (List Track)) (d : Bool) (k : Nat)
    (ff : Bool) (mt : Nat) (fuel n : Nat) (tr : List (Option Track))
    (s' : MixerState) (hk : 0 < k)
    (h : run_trace fuel n (mkMixer sources d k ff mt) = some (tr, s')) :
    SepBy k ((emittedTracks tr).map Track.artist_id) := by
  have h0 : (mkMixer sources d k ff mt).artist_history = lastK k [] := by
    simp [mkMixer, lastK]
  have hsep0 : SepBy k ([] : List String) := by
    intro i j hij hj heq
    simp at hj
  have := run_trace_sep fuel n _ tr s' k [] (by omega) rfl h0 hsep0 h
  simpa using this.1

/-- Witness for C7 at a concrete one-track input. -/
theorem c7_witness : SepBy 2 ((emittedTracks [some ⟨"w", "d"⟩]).map Track.artist_id) :=
  c7_artist_separation [[⟨"w", "d"⟩]] true 2 true 3 5 1 [some ⟨"w", "d"⟩] mixW_after
    (by decide) (by decide)

/-- On an in-range channel `next_channel` acts as `+1 mod N`. -/
theorem next_channel_mod {s : MixerState}
    (h : s.cur_channel < s.source_list.length) :
    (next_channel s).cur_channel = (s.cur_channel + 1) % s.source_list.length := by
  show (if s.source_list.length ≤ s.cur_channel + 1 then 0 else s.cur_channel + 1) =
    (s.cur_channel + 1) % s.source_list.length
  by_cases h2 : s.source_list.length ≤ s.cur_channel + 1
  · rw [if_pos h2]
    have he : s.cur_channel + 1 = s.source_list.length := by omega
    rw [he, Nat.mod_self]
  · rw [if_neg h2, Nat.mod_eq_of_lt (by omega)]

theorem next_channel_lt {s : MixerState} (hN : 0 < s.source_list.length) :
    (next_channel s).cur_channel < s.source_list.length := by
  show (if s.source_list.length ≤ s.cur_channel + 1 then 0 else s.cur_channel + 1) <
    s.source_list.length
  split
  · exact hN
  · omega

theorem good_candidate_state_eq {s s1 : MixerState} (t : Track)
    (h1 : s1.dedup = s.dedup) (h2 : s1.track_history = s.track_history)
    (h3 : s1.artist_history = s.artist_history) :
    good_candidate s1 t = good_candidate s t := by
  unfold good_candidate
  rw [h1, h2, h3]

/-- The channel pointer stays in `[0, N)` across a call. -/
theorem next_track_loop_cur_lt :
    ∀ (fuel : Nat) (s : MixerState) (fails : Nat) (r : Option Track) (s' : MixerState),
      0 < s.source_list.length → s.cur_channel < s.source_list.length →
      next_track_loop fuel s fails = some (r, s') →
      s'.cur_channel < s'.source_list.length := by
  intro fuel
  induction fuel with
  | zero =>
    intro s fails r s' hN hc h
    exact absurd h (by simp [next_track_loop])
  | succ n ih =>
    intro s fails r s' hN hc h
    unfold next_track_loop at h
    by_cases hg : 0 < s.source_list.length ∧ s.track_history.length < s.max_tracks
    · rw [if_pos hg] at h
      by_cases hff : s.fail_fast = true ∧ s.source_list.length ≤ fails
      · rw [if_pos hff] at h
        simp only [Option.some.injEq, Prod.mk.injEq] at h
        obtain ⟨h1, h2⟩ := h
        subst h1
        subst h2
        exact hc
      · rw [if_neg hff] at h
        rcases hgc : get_next_candidate s with ⟨rc, s1⟩
        rw [hgc] at h
        have hs1 : s1 = (get_next_candidate s).2 := by rw [hgc]
        obtain ⟨hcfg1, hth1, hah1, hcc1⟩ := get_next_candidate_snd s
        rw [← hs1] at hcfg1 hth1 hah1 hcc1
        have hN1 : 0 < s1.source_list.length := by
          rw [hcfg1.1]
          exact hN
        cases rc with
        | none =>
          have h' : next_track_loop n (next_channel s1) (fails + 1) = some (r, s') := h
          exact ih (next_channel s1) (fails + 1) r s' hN1 (next_channel_lt hN1) h'
        | some t =>
          have hred : (if good_candidate s1 t = true then
              some (some t, next_channel (add_to_history s1 t))
            else next_track_loop n (next_channel s1) (fails + 1)) = some (r, s') := h
          by_cases hgood : good_candidate s1 t = true
          · rw [if_pos hgood] at hred
            simp only [Option.some.injEq, Prod.mk.injEq] at hred
            obtain ⟨h1, h2⟩ := hred
            subst h1
            subst h2
            have hNa : 0 < (add_to_history s1 t).source_list.length := hN1
            exact next_channel_lt hNa
          · rw [if_neg hgood] at hred
            exact ih (next_channel s1) (fails + 1) r s' hN1 (next_channel_lt hN1) hred
    · rw [if_neg hg] at h
      simp only [Option.some.injEq, Prod.mk.injEq] at h
      obtain ⟨h1, h2⟩ := h
      subst h1
      subst h2
      exact hc

/-- C8: round-robin channel selection.  (1) Every attempt advances the
channel pointer by exactly `+1 mod N` and keeps it in `[0, N)`;
(2) the pointer is still in `[0, N)` after any completed call; (3) when
the current channel's cursor yields a candidate that is not rejected, the
call returns exactly that candidate (consuming it from the current
channel) and hands the pointer to the next channel mod `N` — so absent
rejections and exhausted channels, successive calls read channels
`0, 1, …, N-1, 0, …`. -/
theorem c8_round_robin (s : MixerState) (fuel fails : Nat)
    (hN : 0 < s.source_list.length)
    (hcur : s.cur_channel < s.source_list.length) :
    ((next_channel s).cur_channel = (s.cur_channel + 1) % s.source_list.length ∧
      (next_channel s).cur_channel < s.source_list.length) ∧
    (∀ r s', next_track_loop fuel s fails = some (r, s') →
      s'.cur_channel < s'.source_list.length) ∧
    (s.track_history.length < s.max_tracks →
      ∀ t s1, get_next_candidate s = (some t, s1) → good_candidate s t = true →
        next_track_loop (fuel + 1) s 0 =
            some (some t, next_channel (add_to_history s1 t)) ∧
          (next_channel (add_to_history s1 t)).cur_channel =
            (s.cur_channel + 1) % s.source_list.length) := by
  refine ⟨⟨next_channel_mod hcur, next_channel_lt hN⟩, ?_, ?_⟩
  · intro r s' h
    exact next_track_loop_cur_lt fuel s fails r s' hN hcur h
  · intro hguard t s1 hgc hgood
    have hs1 : s1 = (get_next_candidate s).2 := by rw [hgc]
    obtain ⟨hcfg1, hth1, hah1, hcc1⟩ := get_next_candidate_snd s
    rw [← hs1] at hcfg1 hth1 hah1 hcc1
    have hgood1 : good_candidate s1 t = true := by
      rw [good_candidate_state_eq t hcfg1.2.1 hth1 hah1]
      exact hgood
    constructor
    · unfold next_track_loop
      rw [if_pos ⟨hN, hguard⟩, if_neg ?hne, hgc]
      case hne =>
        rintro ⟨-, hle⟩
        omega
      show (if good_candidate s1 t = true then
          some (some t, next_channel (add_to_history s1 t))
        else next_track_loop fuel (next_channel s1) 1) =
        some (some t, next_channel (add_to_history s1 t))
      rw [if_pos hgood1]
    · have e1 : (add_to_history s1 t).cur_channel = s.cur_channel := by
        rw [add_to_history_cur_channel, hcc1]
      have e2 : (add_to_history s1 t).source_list = s.source_list := hcfg1.1
      have hlt : (add_to_history s1 t).cur_channel <
          (add_to_history s1 t).source_list.length := by
        rw [e1, e2]
        exact hcur
      rw [next_channel_mod hlt, e1, e2]

/-- Witness for C8 at a concrete one-track input. -/
theorem c8_witness :
    (next_channel mixW).cur_channel =
        (mixW.cur_channel + 1) % mixW.source_list.length ∧
      (next_channel mixW).cur_channel < mixW.source_list.length :=
  (c8_round_robin mixW 5 0 (by decide) (by decide)).1
